import Mathlib

/-!
# Verification of the `nuxt-open-fetch` runtime core

This development embeds the runtime core of the repository (the file
containing `createOpenFetch`, `getFetch`, `createHook`, `getOpenFetchHooks`
and `fillPath`) as executable Lean definitions and proves/refutes the
specification's claims about it.

Strings are modelled as `List Char` (JS strings are sequences of code
units; all inputs of interest here are plain characters).  JS runtime
values that can occur in an options object are modelled by a small
inductive `JSV`; path-parameter values (string-or-number) by `JSValue`.

The embedding is organised in three layers, each traceable to the source:

* the path-template resolver `fillPath` and the ambient JS functions it
  uses (`String.prototype.replace` with a string pattern =
  first-occurrence replacement, `encodeURIComponent`, `String(·)`);
* the client factory `createOpenFetch` with `getFetch` and the option
  merging (`{...o, ...c}` object spread modelled as key-wise
  right-biased merge over `List Char → Option JSV`);
* the hook dispatch chain `createHook`, with the async structure of the
  source (sequential `await`s across tiers, `Promise.all` inside the
  local tier) given a trace semantics: `await p; q` concatenates traces,
  `Promise.all` interleaves them.
-/

/-! ## Layer 1: the path template resolver -/

/-- A JS path-parameter value: the source types them as strings but the
runtime coerces with `String(v)`, so numbers are representable too. -/
inductive JSValue where
  | vs (s : List Char)
  | vn (n : Int)
deriving DecidableEq, Repr

/-- JS `String(v)` on the values representable by `JSValue`
(identity on strings, decimal rendering on integral numbers). -/
def jsString : JSValue → List Char
  | .vs s => s
  | .vn n => (toString n).toList

/-- The ECMAScript `uriUnescaped` set used by `encodeURIComponent`:
ASCII alphanumerics and `- _ . ! ~ * ' ( )`. -/
def isUriUnescaped (c : Char) : Bool :=
  c.isAlphanum || c ∈ ['-', '_', '.', '!', '~', '*', '\'', '(', ')']

/-- The upper-case hexadecimal digits, as `encodeURIComponent` uses. -/
def hexChars : List Char := "0123456789ABCDEF".toList

/-- Hexadecimal digit of `n % 16`. -/
def hexDigit (n : Nat) : Char := hexChars.getD (n % 16) '0'

/-- UTF-8 bytes of a code point (the encoding `encodeURIComponent`
applies to escaped characters). -/
def utf8Bytes (n : Nat) : List Nat :=
  if n < 0x80 then [n]
  else if n < 0x800 then [0xC0 + n / 64, 0x80 + n % 64]
  else if n < 0x10000 then
    [0xE0 + n / 4096, 0x80 + (n / 64) % 64, 0x80 + n % 64]
  else
    [0xF0 + n / 262144, 0x80 + (n / 4096) % 64, 0x80 + (n / 64) % 64,
      0x80 + n % 64]

/-- `%HH` escape of one byte. -/
def percentByte (b : Nat) : List Char := ['%', hexDigit (b / 16), hexDigit b]

/-- ECMAScript `encodeURIComponent`: unescaped characters pass through,
all others become the `%HH` escapes of their UTF-8 bytes.  (Lone
surrogates, the only `URIError` case, are unrepresentable in `Char`.) -/
def encodeURIComponent (s : List Char) : List Char :=
  (s.map fun c =>
    if isUriUnescaped c then [c]
    else ((utf8Bytes c.toNat).map percentByte).flatten).flatten

/-- JS `s.replace(pat, repl)` with a string pattern: replace the first
occurrence of `pat` only; the string is returned unchanged when `pat`
does not occur.  (The `$`-substitution forms of `replace` are inert
here: the replacement strings fed to it by `fillPath` are
percent-encoded, and `$` is escaped by `encodeURIComponent`.) -/
def replaceFirst (s pat repl : List Char) : List Char :=
  if pat.isPrefixOf s then repl ++ s.drop pat.length
  else
    match s with
    | [] => []
    | c :: s' => c :: replaceFirst s' pat repl

/-- The exported `fillPath` (source lines 228–232): for each entry of
`Object.entries(params)` in order, replace the first occurrence of
`{k}` by `encodeURIComponent(String(v))`.  The parameter map is
modelled as the entry list `Object.entries` yields. -/
def fillPath (path : List Char) (params : List (List Char × JSValue) := []) :
    List Char :=
  params.foldl
    (fun p kv =>
      replaceFirst p ('{' :: (kv.1 ++ ['}']))
        (encodeURIComponent (jsString kv.2)))
    path

/-! ### First-occurrence characterization of `replaceFirst`

`firstOcc` is a specification-side definition of "the index of the first
occurrence of `pat` in `s`" used to state what JS `replace` does. -/

/-- Index of the first occurrence of `pat` in `s` (`none` if absent). -/
def firstOcc (s pat : List Char) : Option Nat :=
  (List.range (s.length + 1)).find? fun i => pat.isPrefixOf (s.drop i)

/-! ### Segment view of well-formed templates

OpenAPI path templates are concatenations of brace-free literal text and
`{name}` placeholders (the spec: "templates don't nest").  `Seg`/`render`
give that decomposition; the lemmas below relate `fillPath`'s
string-level behaviour to segment-level substitution. -/

/-- One template segment: literal text or a `{k}` placeholder. -/
inductive Seg where
  | lit (s : List Char)
  | ph (k : List Char)
deriving DecidableEq, Repr

/-- Render a segment back to its text. -/
def renderSeg : Seg → List Char
  | .lit s => s
  | .ph k => '{' :: (k ++ ['}'])

/-- Render a segment list back to the template string. -/
def render (segs : List Seg) : List Char := (segs.map renderSeg).flatten

/-- No brace character occurs in the string. -/
def braceFree (s : List Char) : Bool := s.all fun c => c ≠ '{' && c ≠ '}'

/-- A well-formed segment list: literal text and placeholder names are
brace-free, so braces occur in the rendering only as placeholder
delimiters. -/
def wfSegs (segs : List Seg) : Bool :=
  segs.all fun sg =>
    match sg with
    | .lit s => braceFree s
    | .ph k => braceFree k

/-- Segment-level substitution: turn the first `{k}` placeholder into
the literal `v`; identity when no such placeholder exists. -/
def substFirst : List Seg → List Char → List Char → List Seg
  | [], _, _ => []
  | .lit s :: rest, k, v => .lit s :: substFirst rest k v
  | .ph j :: rest, k, v =>
    if j = k then .lit v :: rest else .ph j :: substFirst rest k v

/-- Segment-level image of a whole `fillPath` run. -/
def substAll (segs : List Seg) (params : List (List Char × JSValue)) :
    List Seg :=
  params.foldl
    (fun sg kv => substFirst sg kv.1 (encodeURIComponent (jsString kv.2)))
    segs

/-- The placeholder names of a template, in order. -/
def phContents (segs : List Seg) : List (List Char) :=
  segs.filterMap fun sg =>
    match sg with
    | .ph k => some k
    | .lit _ => none

/-- First-match key lookup in an entry list (what reading the property
`k` of the original JS object gives). -/
def lookupKey (params : List (List Char × JSValue)) (k : List Char) :
    Option JSValue :=
  match params with
  | [] => none
  | (k', v) :: rest => if k' = k then some v else lookupKey rest k

/-- Image of one segment under complete substitution: placeholders whose
name has an entry become the percent-encoded value, others stay. -/
def substSeg (params : List (List Char × JSValue)) : Seg → Seg
  | .lit s => .lit s
  | .ph k =>
    match lookupKey params k with
    | some v => .lit (encodeURIComponent (jsString v))
    | none => .ph k

/-! ## Layer 2: the client factory

Options objects are modelled as key-to-value maps `Opts`; a key bound to
`JSV.vundef` is a present key holding JS `undefined` (object spread
copies such keys, so the model keeps them distinct from absent keys).
The ambient execution context (`import.meta.server`) and the ambient
global transport (`globalThis.$fetch`) become explicit parameters, as
the spec's design notes prescribe for the re-specification. -/

/-- The four fetch lifecycle events. -/
inductive FetchEvent where
  | onRequest
  | onRequestError
  | onResponse
  | onResponseError
deriving DecidableEq, Repr

/-- The option key of an event's local hook field. -/
def evKey : FetchEvent → List Char
  | .onRequest => "onRequest".toList
  | .onRequestError => "onRequestError".toList
  | .onResponse => "onResponse".toList
  | .onResponseError => "onResponseError".toList

/-- A runtime value stored in an options object.  Composed hooks
installed by `getOpenFetchHooks` are carried opaquely as `vcomposed`
(their callable behaviour is the Layer-3 `createHook`); caller-supplied
local hook values are carried as opaque `vlocalHook` tags. -/
inductive JSV where
  | vundef
  | vstr (s : List Char)
  | vnum (n : Int)
  | vpath (m : List (List Char × JSValue))
  | vcomposed (ev : FetchEvent) (idf : Option (List Char))
  | vlocalHook (tag : Nat)
deriving DecidableEq, Repr

/-- A JS options object: key to value, `none` = key absent. -/
def Opts : Type := List Char → Option JSV

/-- The empty object `{}`. -/
def emptyOpts : Opts := fun _ => none

/-- Object spread `{...o, ...c}`: every own key of `c` (also one set to
`undefined`) overrides `o`. -/
def spreadMerge (o c : Opts) : Opts :=
  fun k =>
    match c k with
    | some v => some v
    | none => o k

/-- Functional update, as one step of the `reduce` in
`getOpenFetchHooks` performs. -/
def updateKey (m : Opts) (k : List Char) (v : JSV) : Opts :=
  fun k' => if k' = k then some v else m k'

/-- `createOpenFetch`'s first parameter: a static options object or a
function computing the effective options from the per-call options. -/
inductive Config where
  | obj (o : Opts)
  | fn (f : Opts → Opts)

/-- Source lines 190–196: `typeof options === 'function'
? options(baseOpts) : {...options, ...baseOpts}`. -/
def resolveBase (options : Config) (baseOpts : Opts) : Opts :=
  match options with
  | .fn f => f baseOpts
  | .obj o => spreadMerge o baseOpts

/-- The hook list of `getOpenFetchHooks` (source lines 161–166). -/
def openFetchHooks : List FetchEvent :=
  [.onRequest, .onRequestError, .onResponse, .onResponseError]

/-- Source lines 156–181: `{}` when no hook registry is present,
otherwise the reduce installing a composed hook under each of the four
event keys.  The registry is only tested for presence here, so it is a
`Bool`; the composed closures are the opaque `vcomposed` values. -/
def getOpenFetchHooks (hooks : Bool)
    (hookIdentifier : Option (List Char)) : Opts :=
  if hooks then
    openFetchHooks.foldl
      (fun acc ev => updateKey acc (evKey ev) (.vcomposed ev hookIdentifier))
      emptyOpts
  else emptyOpts

/-- Source lines 198–205: `{...baseOpts, ...getOpenFetchHooks(...)}`
over the resolved base options. -/
def effectiveOpts (options : Config) (hooks : Bool)
    (hookIdentifier : Option (List Char)) (baseOpts : Opts) : Opts :=
  spreadMerge (resolveBase options baseOpts)
    (getOpenFetchHooks hooks hookIdentifier)

/-- The `path` option key. -/
def pathKey : List Char := "path".toList

/-- The `baseURL` option key. -/
def baseURLKey : List Char := "baseURL".toList

/-- Reading `opts?.path` as the parameter map handed to `fillPath`
(JS default parameter: absent or `undefined` becomes `{}`; the typed
interface guarantees an object of strings when present). -/
def pathParamsOf (opts : Opts) : List (List Char × JSValue) :=
  match opts pathKey with
  | some (.vpath m) => m
  | _ => []

/-- JS falsiness of `opts.baseURL` (`!opts.baseURL`): absent,
`undefined`, empty string, or `0`; objects are truthy. -/
def jsFalsy : Option JSV → Bool
  | none => true
  | some .vundef => true
  | some (.vstr []) => true
  | some (.vnum 0) => true
  | some _ => false

/-- JS `x[0] === '/'`: only a string starting with `/` satisfies it
(a non-string value has no index 0 property). -/
def firstCharSlash : Option JSV → Bool
  | some (.vstr ('/' :: _)) => true
  | _ => false

/-- JS `url[0] === '/'`. -/
def headIsSlash (url : List Char) : Bool :=
  match url with
  | c :: _ => c == '/'
  | [] => false

/-- Source lines 213–226: select the local in-process transport exactly
when server-side, a local transport exists, the url is root-relative
and `!opts.baseURL || opts.baseURL[0] === '/'`. -/
def getFetch {F : Type} (isServer : Bool) (url : List Char) (opts : Opts)
    (localFetch : Option F) (globalFetch : F) : F :=
  if isServer then
    match localFetch with
    | some lf =>
      let isLocalFetch :=
        headIsSlash url
        && (jsFalsy (opts baseURLKey) || firstCharSlash (opts baseURLKey))
      if isLocalFetch then lf else globalFetch
    | none => globalFetch
  else globalFetch

/-- Source lines 183–211: the client produced by `createOpenFetch`.
Transports take the resolved URL and the options object and return a
value of the abstract result type `R` (the promise the client returns
unchanged). -/
def createOpenFetch {R : Type} (options : Config)
    (localFetch : Option (List Char → Opts → R))
    (hookIdentifier : Option (List Char)) (hooks : Bool)
    (isServer : Bool) (globalFetch : List Char → Opts → R) :
    List Char → Opts → R :=
  fun url baseOpts =>
    let opts := effectiveOpts options hooks hookIdentifier baseOpts
    let fetch := getFetch isServer url opts localFetch globalFetch
    fetch (fillPath url (pathParamsOf opts)) opts

/-! ## Layer 3: the hook dispatch chain

The async structure of `createHook` (source lines 128–154) is embedded
as a small program syntax `AProg`: `aseq` is `await p; q`, `apar` is
`await Promise.all(...)`, `atom` is one observable step of a hook, and
`athrow` is a throw/rejection.  `Run p t o` is the trace semantics: a
complete execution of `p` emitting the event trace `t` with outcome
`o`.  Sequencing concatenates traces and short-circuits on a rejection;
`Promise.all` interleaves the branch traces and is rejected when a
branch rejects (the model resolves the choice of surfaced reason to the
leftmost rejected branch; the claims do not depend on it).  Hooks are
arbitrary programs parameterised by the event context, and the hook
registry (the `hookable` bus) maps a channel name to its subscriber
list; `callHook` runs subscribers serially, as `hookable` does. -/

/-- An asynchronous computation emitting events of type `Ev` and
throwing exceptions of type `Exn`. -/
inductive AProg (Ev Exn : Type) where
  | skip
  | atom (e : Ev)
  | athrow (x : Exn)
  | aseq (p q : AProg Ev Exn)
  | apar (ps : List (AProg Ev Exn))

/-- Completion outcome of a run. -/
inductive Outcome (Exn : Type) where
  | ok
  | thrown (x : Exn)
deriving DecidableEq, Repr

/-- `Promise.all` outcome combination: rejected iff a branch rejected
(reason resolved to the leftmost rejected branch). -/
def combineOutcome {Exn : Type} : Outcome Exn → Outcome Exn → Outcome Exn
  | .thrown x, _ => .thrown x
  | .ok, o => o

/-- One interleaving of two traces. -/
inductive Shuffle {α : Type} : List α → List α → List α → Prop where
  | nil : Shuffle [] [] []
  | left {x : α} {xs ys zs} :
      Shuffle xs ys zs → Shuffle (x :: xs) ys (x :: zs)
  | right {y : α} {xs ys zs} :
      Shuffle xs ys zs → Shuffle xs (y :: ys) (y :: zs)

/-- One interleaving of a list of traces. -/
inductive InterleaveAll {α : Type} : List (List α) → List α → Prop where
  | nil : InterleaveAll [] []
  | cons {t : List α} {ts rest z} :
      InterleaveAll ts rest → Shuffle t rest z →
      InterleaveAll (t :: ts) z

/-- Trace semantics of `AProg`. -/
inductive Run {Ev Exn : Type} :
    AProg Ev Exn → List Ev → Outcome Exn → Prop where
  | skip : Run .skip [] .ok
  | atom (e : Ev) : Run (.atom e) [e] .ok
  | athrow (x : Exn) : Run (.athrow x) [] (.thrown x)
  | seqOk {p q t₁ t₂ o} :
      Run p t₁ .ok → Run q t₂ o → Run (.aseq p q) (t₁ ++ t₂) o
  | seqThrow {p q t x} :
      Run p t (.thrown x) → Run (.aseq p q) t (.thrown x)
  | parNil : Run (.apar []) [] .ok
  | parCons {p ps t t' z o₁ o₂} :
      Run p t o₁ → Run (.apar ps) t' o₂ → Shuffle t t' z →
      Run (.apar (p :: ps)) z (combineOutcome o₁ o₂)

/-- A lifecycle hook: an async computation of the event context. -/
def Hook (Ctx Ev Exn : Type) : Type := Ctx → AProg Ev Exn

/-- The hook registry: channel name to subscriber list. -/
def Registry (Ctx Ev Exn : Type) : Type :=
  List Char → List (Hook Ctx Ev Exn)

/-- Sequential composition of a list of programs. -/
def seqAll {Ev Exn : Type} (ps : List (AProg Ev Exn)) : AProg Ev Exn :=
  ps.foldr .aseq .skip

/-- `hookable`'s `callHook`: run the channel's subscribers serially on
the arguments, resolving when all have completed. -/
def callHook {Ctx Ev Exn : Type} (reg : Registry Ctx Ev Exn)
    (ch : List Char) (ctx : Ctx) : AProg Ev Exn :=
  seqAll ((reg ch).map fun h => h ctx)

/-- The global channel name `openFetch:<event>`. -/
def channelName (ev : FetchEvent) : List Char :=
  "openFetch:".toList ++ evKey ev

/-- The per-client channel name `openFetch:<event>:<clientName>`. -/
def clientChannelName (ev : FetchEvent) (idf : List Char) : List Char :=
  channelName ev ++ ':' :: idf

/-- The local hook field `baseOpts[hook]`: absent, a single function,
or an array of functions. -/
inductive HookFld (Ctx Ev Exn : Type) where
  | noneF
  | single (h : Hook Ctx Ev Exn)
  | list (hs : List (Hook Ctx Ev Exn))

/-- Tier (a): `await hooks.callHook('openFetch:<hook>', ...args)`. -/
def globalTier {Ctx Ev Exn : Type} (reg : Registry Ctx Ev Exn)
    (hook : FetchEvent) (ctx : Ctx) : AProg Ev Exn :=
  callHook reg (channelName hook) ctx

/-- Tier (b): `if (hookIdentifier) await hooks.callHook(
'openFetch:<hook>:<id>', ...)` — a JS string is truthy iff nonempty. -/
def clientTier {Ctx Ev Exn : Type} (reg : Registry Ctx Ev Exn)
    (hook : FetchEvent) (hookIdentifier : Option (List Char))
    (ctx : Ctx) : AProg Ev Exn :=
  match hookIdentifier with
  | some idf =>
    if idf = [] then .skip else callHook reg (clientChannelName hook idf) ctx
  | none => .skip

/-- Tier (c): `if (baseHook) await (Array.isArray(baseHook)
? Promise.all(baseHook.map(h => h(ctx))) : baseHook(ctx))`. -/
def localTier {Ctx Ev Exn : Type}
    (baseOpts : FetchEvent → HookFld Ctx Ev Exn) (hook : FetchEvent)
    (ctx : Ctx) : AProg Ev Exn :=
  match baseOpts hook with
  | .noneF => .skip
  | .single h => h ctx
  | .list hs => .apar (hs.map fun h => h ctx)

/-- Source lines 128–154: the composed hook returned by `createHook` —
publish on the global channel, then (when an identifier is set) on the
per-client channel, then run the local hook field, each tier awaited
before the next starts.  `baseOpts` is read only through its four local
hook fields, modelled as the assignment `FetchEvent → HookFld`. -/
def createHook {Ctx Ev Exn : Type} (hooks : Registry Ctx Ev Exn)
    (baseOpts : FetchEvent → HookFld Ctx Ev Exn) (hook : FetchEvent)
    (hookIdentifier : Option (List Char)) : Ctx → AProg Ev Exn :=
  fun ctx =>
    .aseq (globalTier hooks hook ctx)
      (.aseq (clientTier hooks hook hookIdentifier ctx)
        (localTier baseOpts hook ctx))

/-- Concrete registry for the C5 witness: one global `onRequest`
subscriber that throws `7`; no other subscribers. -/
def throwingReg : Registry Unit Nat Nat :=
  fun ch =>
    if ch = channelName .onRequest then [fun _ => .athrow 7] else []

/-- Local hooks for the C5 witness: a single local hook for every
event, emitting the event `1`. -/
def localBaseOpts : FetchEvent → HookFld Unit Nat Nat :=
  fun _ => .single fun _ => .atom 1

/-! ## Lemmas and claim theorems

Everything below is proof: helper lemmas about the definitions above,
followed by the claim theorems (named `claim_...`), their
counterexamples and their witnesses. -/

example : fillPath "/pet/{petId}".toList [("petId".toList, .vs "1".toList)]
    = "/pet/1".toList := by decide

example :
    fillPath "/pet/{petId}/uploadMultiple".toList
      [("petId".toList, .vs "1".toList)]
    = "/pet/1/uploadMultiple".toList := by decide

theorem firstOcc_of_isPrefixOf {s pat : List Char} (h : pat.isPrefixOf s) :
    firstOcc s pat = some 0 := by
  unfold firstOcc
  rw [List.range_succ_eq_map]
  exact List.find?_cons_of_pos _ (by simpa using h)

theorem firstOcc_cons_of_neg {s pat : List Char} {c : Char}
    (h : ¬ pat.isPrefixOf (c :: s)) :
    firstOcc (c :: s) pat = (firstOcc s pat).map Nat.succ := by
  unfold firstOcc
  rw [show (c :: s).length + 1 = (s.length + 1) + 1 from rfl,
    List.range_succ_eq_map,
    List.find?_cons_of_neg _ (by simpa using h), List.find?_map]
  rfl

example : firstOcc "ab{x}c".toList "{x}".toList = some 2 := by decide

example : firstOcc "abc".toList "{x}".toList = none := by decide

/-- JS `replace` leaves the string unchanged when the pattern does not
occur in it. -/
theorem replaceFirst_of_firstOcc_none {s pat : List Char} (v : List Char)
    (h : firstOcc s pat = none) : replaceFirst s pat v = s := by
  induction s with
  | nil =>
    cases pat with
    | nil => simp [firstOcc] at h
    | cons p ps => simp [replaceFirst, List.isPrefixOf]
  | cons c s' ih =>
    have hpre : ¬ pat.isPrefixOf (c :: s') := by
      intro hp
      rw [firstOcc_of_isPrefixOf hp] at h
      exact Option.noConfusion h
    rw [firstOcc_cons_of_neg hpre] at h
    have h' : firstOcc s' pat = none := by
      cases hfo : firstOcc s' pat with
      | none => rfl
      | some i => rw [hfo] at h; exact Option.noConfusion h
    simp only [replaceFirst, if_neg hpre]
    rw [ih h']

/-- JS `replace` rewrites exactly the first occurrence of the pattern:
the prefix before it and the suffix after it are kept verbatim. -/
theorem replaceFirst_of_firstOcc_some {s pat : List Char} (v : List Char)
    {i : Nat} (h : firstOcc s pat = some i) :
    replaceFirst s pat v = s.take i ++ v ++ s.drop (i + pat.length) := by
  induction s generalizing i with
  | nil =>
    cases pat with
    | nil =>
      have : i = 0 := (by simpa [firstOcc] using h : i = 0 ∧ _).1
      subst this
      simp [replaceFirst, List.isPrefixOf]
    | cons p ps => simp [firstOcc, List.isPrefixOf] at h
  | cons c s' ih =>
    by_cases hpre : pat.isPrefixOf (c :: s')
    · rw [firstOcc_of_isPrefixOf hpre] at h
      have : i = 0 := by simpa using h.symm
      subst this
      unfold replaceFirst
      rw [if_pos hpre]
      simp
    · rw [firstOcc_cons_of_neg hpre] at h
      cases hfo : firstOcc s' pat with
      | none => rw [hfo] at h; exact Option.noConfusion h
      | some j =>
        rw [hfo] at h
        have hij : i = j + 1 := by simpa using h.symm
        subst hij
        simp only [replaceFirst, if_neg hpre]
        rw [ih hfo]
        simp [List.take, List.drop, Nat.succ_add]

theorem replaceFirst_cons_of_neg {s pat v : List Char} {c : Char}
    (h : ¬ pat.isPrefixOf (c :: s)) :
    replaceFirst (c :: s) pat v = c :: replaceFirst s pat v := by
  conv_lhs => rw [replaceFirst]
  rw [if_neg h]

theorem replaceFirst_append_of_no_open {s t pat v : List Char}
    {p : List Char} (hpat : pat = '{' :: p)
    (hs : s.all (fun c => c ≠ '{')) :
    replaceFirst (s ++ t) pat v = s ++ replaceFirst t pat v := by
  induction s with
  | nil => simp
  | cons c s' ih =>
    simp only [List.all_cons, Bool.and_eq_true, decide_eq_true_eq] at hs
    have hnp : ¬ pat.isPrefixOf (c :: (s' ++ t)) := by
      subst hpat
      simp only [List.isPrefixOf, Bool.and_eq_true, beq_iff_eq]
      exact fun hcontra => hs.1 hcontra.1.symm
    rw [List.cons_append, replaceFirst_cons_of_neg hnp, ih hs.2,
      List.cons_append]

theorem close_prefix_eq {j k t : List Char}
    (hj : braceFree j = true) (hk : braceFree k = true)
    (hp : (k ++ ['}']).isPrefixOf (j ++ ['}'] ++ t)) : k = j := by
  induction k generalizing j with
  | nil =>
    cases j with
    | nil => rfl
    | cons b j' =>
      exfalso
      simp only [List.nil_append, List.cons_append, List.isPrefixOf,
        Bool.and_eq_true, beq_iff_eq] at hp
      simp only [braceFree, List.all_cons, Bool.and_eq_true,
        decide_eq_true_eq] at hj
      exact hj.1.2 hp.1.symm
  | cons a k' ih =>
    cases j with
    | nil =>
      exfalso
      simp only [List.cons_append, List.nil_append, List.isPrefixOf,
        Bool.and_eq_true, beq_iff_eq] at hp
      simp only [braceFree, List.all_cons, Bool.and_eq_true,
        decide_eq_true_eq] at hk
      exact hk.1.2 hp.1
    | cons b j' =>
      simp only [List.cons_append, List.isPrefixOf, Bool.and_eq_true,
        beq_iff_eq] at hp
      simp only [braceFree, List.all_cons, Bool.and_eq_true,
        decide_eq_true_eq] at hj hk
      have := ih (j := j')
        (by simpa [braceFree] using hj.2)
        (by simpa [braceFree] using hk.2)
        (by simpa using hp.2)
      rw [this, hp.1]

theorem ph_pattern_mismatch {j k t : List Char}
    (hj : braceFree j = true) (hk : braceFree k = true) (hne : j ≠ k) :
    ¬ ('{' :: (k ++ ['}'])).isPrefixOf ('{' :: (j ++ ['}']) ++ t) := by
  intro hp
  simp only [List.cons_append, List.isPrefixOf, Bool.and_eq_true,
    beq_iff_eq] at hp
  exact hne (close_prefix_eq hj hk (by simpa [List.append_assoc] using hp.2)).symm

theorem braceFree_no_open {s : List Char} (h : braceFree s = true) :
    s.all (fun c => c ≠ '{') = true := by
  simp only [braceFree, List.all_eq_true, Bool.and_eq_true,
    decide_eq_true_eq] at h ⊢
  exact fun c hc => (h c hc).1

/-- On a well-formed template, JS `replace` with pattern `{k}` performs
exactly the segment-level substitution of the first `{k}` placeholder. -/
theorem replaceFirst_render {segs : List Seg} {k v : List Char}
    (hw : wfSegs segs = true) (hk : braceFree k = true) :
    replaceFirst (render segs) ('{' :: (k ++ ['}'])) v
      = render (substFirst segs k v) := by
  induction segs with
  | nil =>
    simp [render, replaceFirst, List.isPrefixOf, substFirst]
  | cons sg rest ih =>
    simp only [wfSegs, List.all_cons, Bool.and_eq_true] at hw
    have ihr := ih hw.2
    cases sg with
    | lit s =>
      have hs : braceFree s = true := hw.1
      rw [show render (.lit s :: rest) = s ++ render rest by
        simp [render, renderSeg]]
      rw [replaceFirst_append_of_no_open rfl (braceFree_no_open hs), ihr]
      simp [substFirst, render, renderSeg]
    | ph j =>
      have hj : braceFree j = true := hw.1
      by_cases hjk : j = k
      · subst hjk
        have hpre : ('{' :: (j ++ ['}'])).isPrefixOf (render (.ph j :: rest)) := by
          rw [show render (.ph j :: rest) = ('{' :: (j ++ ['}'])) ++ render rest by
            simp [render, renderSeg]]
          exact List.isPrefixOf_iff_prefix.mpr (List.prefix_append _ _)
        rw [show render (.ph j :: rest) = ('{' :: (j ++ ['}'])) ++ render rest by
          simp [render, renderSeg]]
        unfold replaceFirst
        rw [if_pos (show ('{' :: (j ++ ['}'])).isPrefixOf
          (('{' :: (j ++ ['}'])) ++ render rest) = true from
          List.isPrefixOf_iff_prefix.mpr (List.prefix_append _ _))]
        rw [List.drop_left' (by simp)]
        simp [substFirst, render, renderSeg]
      · rw [show render (.ph j :: rest) = '{' :: ((j ++ ['}']) ++ render rest) by
          simp [render, renderSeg]]
        have hnp : ¬ ('{' :: (k ++ ['}'])).isPrefixOf
            ('{' :: (j ++ ['}'] ++ render rest)) := by
          simpa using ph_pattern_mismatch hj hk hjk (t := render rest)
        rw [replaceFirst_cons_of_neg hnp]
        rw [replaceFirst_append_of_no_open rfl
          (by
            simp only [List.all_append, Bool.and_eq_true]
            exact ⟨braceFree_no_open hj, by simp⟩), ihr]
        simp [substFirst, if_neg hjk, render, renderSeg]

/-- Percent-encoded strings contain no braces (`{` and `}` are not in
`uriUnescaped`, and escapes use only `%` and hex digits). -/
theorem braceFree_encodeURIComponent (s : List Char) :
    braceFree (encodeURIComponent s) = true := by
  have hhex : ∀ n : Nat, hexDigit n ≠ '{' ∧ hexDigit n ≠ '}' := by
    intro n
    have hlt : n % 16 < hexChars.length := by
      have : n % 16 < 16 := Nat.mod_lt _ (by norm_num)
      simpa [hexChars] using this
    have hmem : hexDigit n ∈ hexChars := by
      unfold hexDigit
      rw [List.getD_eq_getElem _ _ hlt]
      exact List.getElem_mem _
    generalize hexDigit n = c at hmem ⊢
    fin_cases hmem <;> exact ⟨by decide, by decide⟩
  have hchar : ∀ d : Char, ∀ c ∈ (if isUriUnescaped d then [d]
      else ((utf8Bytes d.toNat).map percentByte).flatten),
      c ≠ '{' ∧ c ≠ '}' := by
    intro d c hc
    by_cases hu : isUriUnescaped d
    · rw [if_pos hu] at hc
      simp only [List.mem_singleton] at hc
      subst hc
      constructor
      · intro h
        rw [h] at hu
        exact absurd hu (by decide)
      · intro h
        rw [h] at hu
        exact absurd hu (by decide)
    · rw [if_neg hu] at hc
      simp only [List.mem_flatten, List.mem_map] at hc
      obtain ⟨l', ⟨b, hb, rfl⟩, hcl⟩ := hc
      have hor : c = '%' ∨ c = hexDigit (b / 16) ∨ c = hexDigit b := by
        simpa [percentByte] using hcl
      rcases hor with rfl | rfl | rfl
      · exact ⟨by decide, by decide⟩
      · exact hhex (b / 16)
      · exact hhex b
  simp only [braceFree, encodeURIComponent, List.all_eq_true,
    List.mem_flatten, List.mem_map]
  rintro c ⟨l, ⟨⟨d, hd, rfl⟩, hcl⟩⟩
  have h := hchar d c hcl
  simp [h.1, h.2]

theorem wfSegs_substFirst {segs : List Seg} {k v : List Char}
    (hw : wfSegs segs = true) (hv : braceFree v = true) :
    wfSegs (substFirst segs k v) = true := by
  induction segs with
  | nil => simpa [substFirst] using hw
  | cons sg rest ih =>
    simp only [wfSegs, List.all_cons, Bool.and_eq_true] at hw
    cases sg with
    | lit s =>
      simp only [substFirst, wfSegs, List.all_cons, Bool.and_eq_true]
      exact ⟨hw.1, ih hw.2⟩
    | ph j =>
      by_cases hjk : j = k
      · simp only [substFirst, if_pos hjk, wfSegs, List.all_cons,
          Bool.and_eq_true]
        exact ⟨hv, hw.2⟩
      · simp only [substFirst, if_neg hjk, wfSegs, List.all_cons,
          Bool.and_eq_true]
        exact ⟨hw.1, ih hw.2⟩

/-- `fillPath` on the rendering of a well-formed template is the
rendering of the segment-level substitution. -/
theorem fillPath_render {segs : List Seg}
    {params : List (List Char × JSValue)}
    (hw : wfSegs segs = true)
    (hks : params.all (fun kv => braceFree kv.1) = true) :
    fillPath (render segs) params = render (substAll segs params) := by
  induction params generalizing segs with
  | nil => simp [fillPath, substAll]
  | cons kv rest ih =>
    simp only [List.all_cons, Bool.and_eq_true] at hks
    have h1 : fillPath (render segs) (kv :: rest)
        = fillPath
          (replaceFirst (render segs) ('{' :: (kv.1 ++ ['}']))
            (encodeURIComponent (jsString kv.2))) rest := by
      simp [fillPath]
    rw [h1, replaceFirst_render hw hks.1,
      ih (wfSegs_substFirst hw (braceFree_encodeURIComponent _)) hks.2]
    simp [substAll]

/-- Segment substitutions for distinct keys commute: each key targets
only its own placeholders. -/
theorem substFirst_comm {segs : List Seg} {k₁ v₁ k₂ v₂ : List Char}
    (hne : k₁ ≠ k₂) :
    substFirst (substFirst segs k₁ v₁) k₂ v₂
      = substFirst (substFirst segs k₂ v₂) k₁ v₁ := by
  induction segs with
  | nil => simp [substFirst]
  | cons sg rest ih =>
    cases sg with
    | lit s => simp [substFirst, ih]
    | ph j =>
      by_cases h1 : j = k₁
      · subst h1
        simp [substFirst, if_neg hne, if_neg (Ne.symm hne)]
      · by_cases h2 : j = k₂
        · subst h2
          simp [substFirst, if_neg h1, if_neg (fun h => h1 h)]
        · simp [substFirst, if_neg h1, if_neg h2, ih]

/-- On entry lists with pairwise-distinct keys (as `Object.entries`
yields), the order of segment substitutions does not matter. -/
theorem substAll_perm {segs : List Seg}
    {p₁ p₂ : List (List Char × JSValue)} (hp : p₁.Perm p₂)
    (hnd : (p₁.map Prod.fst).Nodup) :
    substAll segs p₁ = substAll segs p₂ := by
  unfold substAll
  refine hp.foldl_eq' ?_ segs
  intro x hx y hy sg
  by_cases hxy : x = y
  · subst hxy; rfl
  · have hk : x.1 ≠ y.1 := by
      intro h
      exact hxy (List.inj_on_of_nodup_map hnd hx hy h)
    exact substFirst_comm hk

theorem phContents_substFirst (segs : List Seg) (k v : List Char) :
    phContents (substFirst segs k v) = (phContents segs).erase k := by
  induction segs with
  | nil => simp [substFirst, phContents]
  | cons sg rest ih =>
    cases sg with
    | lit s => simpa [substFirst, phContents] using ih
    | ph j =>
      by_cases hjk : j = k
      · subst hjk
        simp [substFirst, phContents, List.erase_cons_head]
      · rw [show substFirst (.ph j :: rest) k v
            = .ph j :: substFirst rest k v by simp [substFirst, hjk]]
        rw [show phContents (Seg.ph j :: substFirst rest k v)
            = j :: phContents (substFirst rest k v) by simp [phContents]]
        rw [show phContents (Seg.ph j :: rest)
            = j :: phContents rest by simp [phContents]]
        rw [List.erase_cons_tail (by simpa using hjk), ih]

theorem substSeg_nil (sg : Seg) : substSeg [] sg = sg := by
  cases sg <;> simp [substSeg, lookupKey]

theorem mem_phContents {segs : List Seg} {j : List Char} :
    j ∈ phContents segs ↔ Seg.ph j ∈ segs := by
  simp only [phContents, List.mem_filterMap]
  constructor
  · rintro ⟨sg, hsg, hf⟩
    cases sg with
    | lit s => simp at hf
    | ph j' =>
      simp only [Option.some.injEq] at hf
      subst hf
      exact hsg
  · intro h
    exact ⟨Seg.ph j, h, rfl⟩

theorem map_substSeg_drop_entry {segs : List Seg} {k : List Char}
    {v : JSValue} {ps : List (List Char × JSValue)}
    (hno : ∀ j, Seg.ph j ∈ segs → j ≠ k) :
    segs.map (substSeg ((k, v) :: ps)) = segs.map (substSeg ps) := by
  induction segs with
  | nil => rfl
  | cons sg rest ih =>
    have ih' := ih fun j hj => hno j (List.mem_cons_of_mem _ hj)
    cases sg with
    | lit s => simp only [List.map_cons, ih']; rfl
    | ph j =>
      have hj : j ≠ k := hno j (List.mem_cons_self _ _)
      simp only [List.map_cons, ih']
      congr 1
      simp [substSeg, lookupKey, if_neg (Ne.symm hj)]

theorem map_substSeg_cons {segs : List Seg} {k : List Char} {v : JSValue}
    {ps : List (List Char × JSValue)}
    (hnd : (phContents segs).Nodup) :
    segs.map (substSeg ((k, v) :: ps))
      = (substFirst segs k (encodeURIComponent (jsString v))).map
          (substSeg ps) := by
  induction segs with
  | nil => simp [substFirst]
  | cons sg rest ih =>
    cases sg with
    | lit s =>
      have hnd' : (phContents rest).Nodup := by
        simpa [phContents] using hnd
      simp only [substFirst, List.map_cons]
      rw [ih hnd']
      rfl
    | ph j =>
      have hcontents : phContents (Seg.ph j :: rest)
          = j :: phContents rest := by simp [phContents]
      rw [hcontents] at hnd
      have hnd' : (phContents rest).Nodup := hnd.of_cons
      have hjnot : j ∉ phContents rest := (List.nodup_cons.mp hnd).1
      by_cases hjk : j = k
      · subst hjk
        rw [show substFirst (Seg.ph j :: rest) j
              (encodeURIComponent (jsString v))
            = .lit (encodeURIComponent (jsString v)) :: rest by
          simp [substFirst]]
        simp only [List.map_cons]
        rw [show substSeg ((j, v) :: ps) (.ph j)
            = .lit (encodeURIComponent (jsString v)) by
          simp [substSeg, lookupKey]]
        rw [show substSeg ps (.lit (encodeURIComponent (jsString v)))
            = .lit (encodeURIComponent (jsString v)) from rfl]
        congr 1
        exact map_substSeg_drop_entry fun j' hj' heq =>
          hjnot (heq ▸ mem_phContents.mpr hj')
      · rw [show substFirst (Seg.ph j :: rest) k
              (encodeURIComponent (jsString v))
            = .ph j :: substFirst rest k (encodeURIComponent (jsString v)) by
          simp [substFirst, hjk]]
        simp only [List.map_cons]
        rw [ih hnd']
        congr 1
        rw [show substSeg ((k, v) :: ps) (.ph j)
            = match lookupKey ps j with
              | some v => Seg.lit (encodeURIComponent (jsString v))
              | none => Seg.ph j by
          simp only [substSeg, lookupKey,
            if_neg (show ¬ k = j from fun h => hjk h.symm)]]
        rfl

/-- With pairwise-distinct placeholder names, a `fillPath` run realises
the complete-substitution map: every placeholder with an entry becomes
its percent-encoded value, the rest stay. -/
theorem substAll_eq_map {segs : List Seg}
    {params : List (List Char × JSValue)}
    (hnd : (phContents segs).Nodup) :
    substAll segs params = segs.map (substSeg params) := by
  induction params generalizing segs with
  | nil =>
    rw [show substAll segs [] = segs from rfl]
    clear hnd
    induction segs with
    | nil => rfl
    | cons sg rest ihs => rw [List.map_cons, substSeg_nil, ← ihs]
  | cons kv ps ih =>
    obtain ⟨k, v⟩ := kv
    rw [show substAll segs ((k, v) :: ps)
        = substAll (substFirst segs k (encodeURIComponent (jsString v))) ps
        from rfl]
    have hnd' :
        (phContents
          (substFirst segs k (encodeURIComponent (jsString v)))).Nodup := by
      rw [phContents_substFirst]
      exact hnd.erase _
    rw [ih hnd', map_substSeg_cons hnd]

theorem lookupKey_isSome_of_mem {params : List (List Char × JSValue)}
    {k : List Char} (h : k ∈ params.map Prod.fst) :
    ∃ v, lookupKey params k = some v := by
  induction params with
  | nil => simp at h
  | cons kv ps ih =>
    obtain ⟨k', v⟩ := kv
    by_cases hk : k' = k
    · exact ⟨v, by simp [lookupKey, hk]⟩
    · have : k ∈ ps.map Prod.fst := by
        rcases List.mem_cons.mp h with h1 | h1
        · exact absurd h1.symm hk
        · exact h1
      obtain ⟨v', hv'⟩ := ih this
      exact ⟨v', by simp [lookupKey, hk, hv']⟩

theorem braceFree_render_substSeg {segs : List Seg}
    {params : List (List Char × JSValue)}
    (hw : wfSegs segs = true)
    (hcov : ∀ k, Seg.ph k ∈ segs → k ∈ params.map Prod.fst) :
    braceFree (render (segs.map (substSeg params))) = true := by
  induction segs with
  | nil => rfl
  | cons sg rest ih =>
    simp only [wfSegs, List.all_cons, Bool.and_eq_true] at hw
    have ihr := ih hw.2 fun k hk => hcov k (List.mem_cons_of_mem _ hk)
    have hhead : braceFree (renderSeg (substSeg params sg)) = true := by
      cases sg with
      | lit s => simpa [substSeg, renderSeg] using hw.1
      | ph k =>
        obtain ⟨v, hv⟩ :=
          lookupKey_isSome_of_mem (hcov k (List.mem_cons_self _ _))
        simp only [substSeg, hv, renderSeg]
        exact braceFree_encodeURIComponent _
    rw [show render ((sg :: rest).map (substSeg params))
        = renderSeg (substSeg params sg)
          ++ render (rest.map (substSeg params)) by
      simp [render]]
    simp only [braceFree, List.all_append, Bool.and_eq_true] at hhead ihr ⊢
    exact ⟨hhead, ihr⟩

/-- C9: `fillPath` with an empty parameter map is the identity, and
`fillPath` is deterministic (it is a pure function of its arguments;
side-effect-freedom holds by construction of the embedding). -/
theorem claim_C9_fillPath_empty_identity :
    (∀ T : List Char, fillPath T [] = T) ∧
    (∀ (T : List Char) (p : List (List Char × JSValue)),
      fillPath T p = fillPath T p) :=
  ⟨fun _ => rfl, fun _ _ => rfl⟩

/-- C7 counterexample: the claim asserts order-independence for every
template and parameter map, but replacing `{x}` by `1` inside the
template `{a{x}b}` manufactures the placeholder `{a1b}`, so the two
iteration orders of the same two-entry map disagree. -/
theorem claim_C7_counterexample :
    fillPath ['{', 'a', '{', 'x', '}', 'b', '}']
        [(['x'], .vs ['1']), (['a', '1', 'b'], .vs ['q'])]
      ≠ fillPath ['{', 'a', '{', 'x', '}', 'b', '}']
        [(['a', '1', 'b'], .vs ['q']), (['x'], .vs ['1'])] := by
  decide

/-- C7 (amended): each processed entry replaces exactly the first
occurrence of `{k}` in the current string (a missing placeholder leaves
it unchanged, no error), and on well-formed templates (brace-free
literals and placeholder names) with brace-free, pairwise-distinct keys
the result is independent of the iteration order of the entries. -/
theorem claim_C7_first_occurrence_and_order :
    (∀ (path k : List Char) (v : JSValue)
        (rest : List (List Char × JSValue)),
      fillPath path ((k, v) :: rest)
        = fillPath
            (match firstOcc path ('{' :: (k ++ ['}'])) with
             | none => path
             | some i =>
                 path.take i ++ encodeURIComponent (jsString v)
                   ++ path.drop (i + ('{' :: (k ++ ['}'])).length))
            rest) ∧
    (∀ (segs : List Seg) (p₁ p₂ : List (List Char × JSValue)),
      wfSegs segs = true →
      (p₁.map Prod.fst).Nodup →
      p₁.all (fun kv => braceFree kv.1) = true →
      p₁.Perm p₂ →
      fillPath (render segs) p₁ = fillPath (render segs) p₂) := by
  constructor
  · intro path k v rest
    have hstep : fillPath path ((k, v) :: rest)
        = fillPath
            (replaceFirst path ('{' :: (k ++ ['}']))
              (encodeURIComponent (jsString v))) rest := rfl
    rw [hstep]
    cases hfo : firstOcc path ('{' :: (k ++ ['}'])) with
    | none => rw [replaceFirst_of_firstOcc_none _ hfo]
    | some i => rw [replaceFirst_of_firstOcc_some _ hfo]
  · intro segs p₁ p₂ hw hnd hks hp
    have hks₂ : p₂.all (fun kv => braceFree kv.1) = true := by
      rw [List.all_eq_true] at hks ⊢
      exact fun kv hkv => hks kv (hp.mem_iff.mpr hkv)
    rw [fillPath_render hw hks, fillPath_render hw hks₂,
      substAll_perm hp hnd]

/-- C7 witness: the order-independence part applied to the template
`/{a}/{b}` and the two orders of the map `{a: 1, b: 2}`. -/
theorem claim_C7_witness :
    fillPath
        (render [.lit ['/'], .ph ['a'], .lit ['/'], .ph ['b']])
        [(['a'], .vs ['1']), (['b'], .vs ['2'])]
      = fillPath
        (render [.lit ['/'], .ph ['a'], .lit ['/'], .ph ['b']])
        [(['b'], .vs ['2']), (['a'], .vs ['1'])] :=
  claim_C7_first_occurrence_and_order.2
    [.lit ['/'], .ph ['a'], .lit ['/'], .ph ['b']]
    [(['a'], .vs ['1']), (['b'], .vs ['2'])]
    [(['b'], .vs ['2']), (['a'], .vs ['1'])]
    (by decide) (by decide) (by decide) (by decide)

/-- C8 counterexample: the claim quantifies over all templates in which
every placeholder has a matching key, but replacement is
first-occurrence-only, so the duplicated placeholder in `/{x}/{x}`
survives: the output still contains a `{x}` token (a `{`). -/
theorem claim_C8_counterexample :
    wfSegs [.lit ['/'], .ph ['x'], .lit ['/'], .ph ['x']] = true ∧
    (∀ k ∈ phContents [.lit ['/'], .ph ['x'], .lit ['/'], .ph ['x']],
      k ∈ ([(['x'], JSValue.vs ['1'])].map Prod.fst)) ∧
    fillPath (render [.lit ['/'], .ph ['x'], .lit ['/'], .ph ['x']])
        [(['x'], JSValue.vs ['1'])]
      = ['/', '1', '/', '{', 'x', '}'] ∧
    '{' ∈ fillPath (render [.lit ['/'], .ph ['x'], .lit ['/'], .ph ['x']])
        [(['x'], JSValue.vs ['1'])] := by
  refine ⟨by decide, ?_, by decide, by decide⟩
  intro k hk
  fin_cases hk <;> decide

/-- C8 (amended): additionally assuming the placeholder names are
pairwise distinct (the spec's own "assumed unique per OpenAPI
convention"), a fully covered well-formed template resolves completely:
no brace survives, and each placeholder becomes exactly the
percent-encoded value of its entry. -/
theorem claim_C8_complete_substitution
    (segs : List Seg) (params : List (List Char × JSValue))
    (hw : wfSegs segs = true)
    (hnd : (phContents segs).Nodup)
    (hks : params.all (fun kv => braceFree kv.1) = true)
    (hcov : ∀ k ∈ phContents segs, k ∈ params.map Prod.fst) :
    fillPath (render segs) params = render (segs.map (substSeg params)) ∧
    braceFree (fillPath (render segs) params) = true := by
  have h1 : fillPath (render segs) params = render (substAll segs params) :=
    fillPath_render hw hks
  rw [h1, substAll_eq_map hnd]
  exact ⟨rfl,
    braceFree_render_substSeg hw fun k hk =>
      hcov k (mem_phContents.mpr hk)⟩

/-- C8 witness: complete substitution on `/pet/{petId}` with
`{petId: "1"}`. -/
theorem claim_C8_witness :
    fillPath (render [.lit "/pet/".toList, .ph "petId".toList])
        [("petId".toList, JSValue.vs ['1'])]
      = render (([.lit "/pet/".toList, .ph "petId".toList] : List Seg).map
          (substSeg [("petId".toList, JSValue.vs ['1'])])) ∧
    braceFree (fillPath (render [.lit "/pet/".toList, .ph "petId".toList])
        [("petId".toList, JSValue.vs ['1'])]) = true :=
  claim_C8_complete_substitution
    [.lit "/pet/".toList, .ph "petId".toList]
    [("petId".toList, JSValue.vs ['1'])]
    (by decide) (by decide) (by decide)
    (by intro k hk; fin_cases hk; decide)

/-- C10: non-string parameter values go through the JS string coercion
`String(v)` and are then percent-encoded; in particular
`fillPath('/pet/{petId}', {petId: 1})` is `/pet/1`, and in general a
numeric entry substitutes the encoded decimal rendering.  The embedding
is total, so no input raises an error. -/
theorem claim_C10_number_coercion :
    fillPath "/pet/{petId}".toList [("petId".toList, JSValue.vn 1)]
      = "/pet/1".toList ∧
    (∀ (segs : List Seg) (k : List Char) (n : Int),
      wfSegs segs = true → braceFree k = true →
      fillPath (render segs) [(k, JSValue.vn n)]
        = render (substFirst segs k
            (encodeURIComponent (jsString (JSValue.vn n))))) := by
  refine ⟨by decide, ?_⟩
  intro segs k n hw hk
  have h : fillPath (render segs) [(k, JSValue.vn n)]
      = render (substAll segs [(k, JSValue.vn n)]) :=
    fillPath_render hw (by simp [hk])
  simpa [substAll] using h

/-- C10 witness: the general part applied to `/pet/{petId}` with the
numeric value 1. -/
theorem claim_C10_witness :
    fillPath (render [.lit "/pet/".toList, .ph "petId".toList])
        [("petId".toList, JSValue.vn 1)]
      = render (substFirst [.lit "/pet/".toList, .ph "petId".toList]
          "petId".toList (encodeURIComponent (jsString (JSValue.vn 1)))) :=
  claim_C10_number_coercion.2
    [.lit "/pet/".toList, .ph "petId".toList]
    "petId".toList 1 (by decide) (by decide)

theorem spreadMerge_empty (b : Opts) : spreadMerge b emptyOpts = b := by
  funext k
  rfl

theorem getFetch_none {F : Type} (isServer : Bool) (url : List Char)
    (opts : Opts) (gf : F) : getFetch isServer url opts none gf = gf := by
  cases isServer <;> rfl

theorem getOpenFetchHooks_lookup (hooks : Bool)
    (idf : Option (List Char)) (k : List Char) :
    getOpenFetchHooks hooks idf k
      = if hooks then
          (if k = evKey .onResponseError then
            some (.vcomposed .onResponseError idf)
          else if k = evKey .onResponse then
            some (.vcomposed .onResponse idf)
          else if k = evKey .onRequestError then
            some (.vcomposed .onRequestError idf)
          else if k = evKey .onRequest then
            some (.vcomposed .onRequest idf)
          else none)
        else none := by
  cases hooks with
  | false => rfl
  | true =>
    simp only [getOpenFetchHooks, if_pos, openFetchHooks, List.foldl_cons,
      List.foldl_nil, updateKey, emptyOpts]

theorem getOpenFetchHooks_lookup_other (hooks : Bool)
    (idf : Option (List Char)) {k : List Char}
    (hk : k ∉ openFetchHooks.map evKey) :
    getOpenFetchHooks hooks idf k = none := by
  simp only [openFetchHooks, List.map_cons, List.map_nil, List.mem_cons,
    List.mem_singleton, not_or] at hk
  rw [getOpenFetchHooks_lookup]
  cases hooks with
  | false => rfl
  | true =>
    rw [if_pos rfl, if_neg hk.2.2.2.1, if_neg hk.2.2.1, if_neg hk.2.1,
      if_neg hk.1]

theorem createOpenFetch_eq {R : Type} (options : Config)
    (lf : Option (List Char → Opts → R)) (idf : Option (List Char))
    (hooks : Bool) (isv : Bool) (gf : List Char → Opts → R)
    (u : List Char) (b : Opts) :
    createOpenFetch options lf idf hooks isv gf u b
      = (getFetch isv u (effectiveOpts options hooks idf b) lf gf)
          (fillPath u (pathParamsOf (effectiveOpts options hooks idf b)))
          (effectiveOpts options hooks idf b) := rfl

theorem effectiveOpts_no_hooks (options : Config)
    (idf : Option (List Char)) (b : Opts) :
    effectiveOpts options false idf b = resolveBase options b := by
  unfold effectiveOpts getOpenFetchHooks
  rw [if_neg (by simp)]
  exact spreadMerge_empty _

/-- C2: in the function branch the factory's effective options are
exactly the function's result, with no further factory-side merge (with
no hook registry the transport receives exactly `f c`); in the static
branch the effective options are the shallow merge of the per-call
options over the base object, per-call keys winning on collision. -/
theorem claim_C2_option_resolution :
    (∀ (f : Opts → Opts) (c : Opts), resolveBase (.fn f) c = f c) ∧
    (∀ (f : Opts → Opts) (c : Opts) (idf : Option (List Char))
        (isv : Bool) (u : List Char),
      createOpenFetch (R := List Char × Opts) (.fn f) none idf false isv
          (fun u' o' => (u', o')) u c
        = (fillPath u (pathParamsOf (f c)), f c)) ∧
    (∀ (o c : Opts) (k : List Char) (v : JSV),
      c k = some v → resolveBase (.obj o) c k = some v) ∧
    (∀ (o c : Opts) (k : List Char),
      c k = none → resolveBase (.obj o) c k = o k) := by
  refine ⟨fun f c => rfl, ?_, ?_, ?_⟩
  · intro f c idf isv u
    have heff : effectiveOpts (.fn f) false idf c = f c :=
      effectiveOpts_no_hooks _ _ _
    rw [createOpenFetch_eq, heff, getFetch_none]
  · intro o c k v hk
    simp only [resolveBase, spreadMerge]
    rw [hk]
  · intro o c k hk
    simp only [resolveBase, spreadMerge]
    rw [hk]

/-- C2 witness: a colliding key resolves to the per-call value in the
static branch, and to the base value when absent per-call. -/
theorem claim_C2_witness :
    resolveBase (.obj (updateKey emptyOpts ['a'] (.vnum 1)))
        (updateKey emptyOpts ['a'] (.vnum 2)) ['a'] = some (.vnum 2) ∧
    resolveBase (.obj (updateKey emptyOpts ['a'] (.vnum 1)))
        (updateKey emptyOpts ['b'] (.vnum 3)) ['a'] = some (.vnum 1) :=
  ⟨claim_C2_option_resolution.2.2.1 _ _ ['a'] (.vnum 2) rfl,
    claim_C2_option_resolution.2.2.2 _ _ ['a'] (by decide) |>.trans
      (by decide)⟩

/-- C6: with no hook registry the global/per-client publication layers
are skipped entirely — `getOpenFetchHooks` returns the empty object, no
composed hook is installed, and the transport receives exactly the
resolved base options with any local hook fields untouched.  The model
is a total function, so no error arises. -/
theorem claim_C6_no_registry_degrades :
    (∀ idf : Option (List Char), getOpenFetchHooks false idf = emptyOpts) ∧
    (∀ (options : Config) (idf : Option (List Char)) (b : Opts),
      effectiveOpts options false idf b = resolveBase options b) ∧
    (∀ (options : Config) (idf : Option (List Char)) (isv : Bool)
        (u : List Char) (b : Opts),
      createOpenFetch (R := List Char × Opts) options none idf false isv
          (fun u' o' => (u', o')) u b
        = (fillPath u (pathParamsOf (resolveBase options b)),
            resolveBase options b)) := by
  refine ⟨fun idf => rfl, ?_, ?_⟩
  · intro options idf b
    exact effectiveOpts_no_hooks _ _ _
  · intro options idf isv u b
    rw [createOpenFetch_eq, effectiveOpts_no_hooks, getFetch_none]

/-- C4 counterexample: the claim says the options object handed to the
transport contains no `path` field, but the source passes `opts` whole;
with an observing transport the received object still holds the
path-parameter map under `path`. -/
theorem claim_C4_counterexample :
    (createOpenFetch (R := List Char × Opts) (.obj emptyOpts) none none
        false false (fun u' o' => (u', o')) "/pet/{petId}".toList
        (updateKey emptyOpts pathKey
          (.vpath [("petId".toList, .vs ['1'])]))).2 pathKey
      = some (.vpath [("petId".toList, .vs ['1'])]) ∧
    (createOpenFetch (R := List Char × Opts) (.obj emptyOpts) none none
        false false (fun u' o' => (u', o')) "/pet/{petId}".toList
        (updateKey emptyOpts pathKey
          (.vpath [("petId".toList, .vs ['1'])]))).1
      = "/pet/1".toList := by
  constructor
  · rfl
  · decide

/-- C4 (amended): the client invokes the selected transport with the
`fillPath`-resolved URL and the effective options passed through
unchanged — the `path` field included — and returns the transport's
value unchanged; hook attachment overrides only the four event keys,
every other key (in particular `path`) is exactly the resolved base
value. -/
theorem claim_C4_transport_invocation :
    (∀ (R : Type) (options : Config)
        (lf : Option (List Char → Opts → R)) (idf : Option (List Char))
        (hooks isv : Bool) (gf : List Char → Opts → R)
        (u : List Char) (b : Opts),
      createOpenFetch options lf idf hooks isv gf u b
        = (getFetch isv u (effectiveOpts options hooks idf b) lf gf)
            (fillPath u (pathParamsOf (effectiveOpts options hooks idf b)))
            (effectiveOpts options hooks idf b)) ∧
    (∀ (options : Config) (idf : Option (List Char)) (hooks : Bool)
        (b : Opts) (k : List Char), k ∉ openFetchHooks.map evKey →
      effectiveOpts options hooks idf b k = resolveBase options b k) := by
  constructor
  · intro R options lf idf hooks isv gf u b
    exact createOpenFetch_eq options lf idf hooks isv gf u b
  · intro options idf hooks b k hk
    simp only [effectiveOpts, spreadMerge]
    rw [getOpenFetchHooks_lookup_other hooks idf hk]

/-- C4 witness: with a hook registry present, the `path` key of the
options handed to the transport is still the resolved base `path`. -/
theorem claim_C4_witness :
    effectiveOpts (.obj emptyOpts) true (some "api".toList)
        (updateKey emptyOpts pathKey (.vpath [("petId".toList, .vs ['1'])]))
        pathKey
      = resolveBase (.obj emptyOpts)
          (updateKey emptyOpts pathKey
            (.vpath [("petId".toList, .vs ['1'])])) pathKey :=
  claim_C4_transport_invocation.2 (.obj emptyOpts) (some "api".toList) true
    (updateKey emptyOpts pathKey (.vpath [("petId".toList, .vs ['1'])]))
    pathKey (by decide)

/-- C3 counterexample: the claim allows the local transport only when
the base URL is absent or root-relative, but the source tests JS
falsiness (`!opts.baseURL`): with a present, empty-string `baseURL` —
neither absent nor starting with `/` — the local transport is still
selected. -/
theorem claim_C3_counterexample :
    getFetch true "/x".toList (updateKey emptyOpts baseURLKey (.vstr []))
        (some true) false = true ∧
    updateKey emptyOpts baseURLKey (.vstr []) baseURLKey
      = some (.vstr []) ∧
    firstCharSlash (updateKey emptyOpts baseURLKey (.vstr []) baseURLKey)
      = false ∧
    (true : Bool) ≠ false := by
  refine ⟨by decide, by decide, by decide, by decide⟩

theorem headIsSlash_iff (url : List Char) :
    headIsSlash url = true ↔ url.head? = some '/' := by
  cases url <;> simp [headIsSlash]

/-- C3 (amended): the local transport is selected iff server-side,
local transport supplied, root-relative target URL, and the effective
`baseURL` is falsy (absent, `undefined`, or the empty string) or
root-relative; if any condition fails the global transport is
returned. -/
theorem claim_C3_local_transport_selection :
    (∀ (F : Type) (isv : Bool) (url : List Char) (opts : Opts)
        (olf : Option F) (gf : F),
      getFetch isv url opts olf gf
        = if isv = true ∧ olf.isSome = true ∧ url.head? = some '/'
              ∧ (jsFalsy (opts baseURLKey) = true
                  ∨ firstCharSlash (opts baseURLKey) = true)
          then olf.getD gf else gf) ∧
    (∀ (F : Type) (isv : Bool) (url : List Char) (opts : Opts)
        (lf gf : F), lf ≠ gf →
      (getFetch isv url opts (some lf) gf = lf ↔
        isv = true ∧ url.head? = some '/'
          ∧ (jsFalsy (opts baseURLKey) = true
              ∨ firstCharSlash (opts baseURLKey) = true))) := by
  have hchar : ∀ (F : Type) (isv : Bool) (url : List Char) (opts : Opts)
      (olf : Option F) (gf : F),
      getFetch isv url opts olf gf
        = if isv = true ∧ olf.isSome = true ∧ url.head? = some '/'
              ∧ (jsFalsy (opts baseURLKey) = true
                  ∨ firstCharSlash (opts baseURLKey) = true)
          then olf.getD gf else gf := by
    intro F isv url opts olf gf
    cases isv with
    | false => simp [getFetch]
    | true =>
      cases olf with
      | none => simp [getFetch]
      | some lf =>
        by_cases hu : url.head? = some '/'
        · by_cases hb : (jsFalsy (opts baseURLKey) = true
              ∨ firstCharSlash (opts baseURLKey) = true)
          · simp [getFetch, Bool.and_eq_true, Bool.or_eq_true,
              headIsSlash_iff, hu, hb]
          · simp [getFetch, Bool.and_eq_true, Bool.or_eq_true,
              headIsSlash_iff, hu, hb]
        · simp [getFetch, Bool.and_eq_true, Bool.or_eq_true,
            headIsSlash_iff, hu]
  refine ⟨hchar, ?_⟩
  intro F isv url opts lf gf hne
  rw [hchar]
  by_cases h : isv = true ∧ (some lf : Option F).isSome = true
      ∧ url.head? = some '/'
      ∧ (jsFalsy (opts baseURLKey) = true
          ∨ firstCharSlash (opts baseURLKey) = true)
  · rw [if_pos h]
    simp only [Option.getD_some]
    exact ⟨fun _ => ⟨h.1, h.2.2.1, h.2.2.2⟩, fun _ => trivial⟩
  · rw [if_neg h]
    constructor
    · intro hg
      exact absurd hg.symm hne
    · intro hrhs
      exact absurd ⟨hrhs.1, rfl, hrhs.2.1, hrhs.2.2⟩ h

/-- C3 witness: a server-side call with a supplied local transport, a
root-relative URL and no `baseURL` selects the local transport. -/
theorem claim_C3_witness :
    getFetch true "/x".toList emptyOpts (some true) false = true :=
  ((claim_C3_local_transport_selection.2 Bool true "/x".toList emptyOpts
      true false (by decide)).mpr ⟨rfl, rfl, Or.inl rfl⟩)

theorem run_skip_iff {Ev Exn : Type} {t : List Ev} {o : Outcome Exn} :
    Run .skip t o ↔ t = [] ∧ o = .ok := by
  constructor
  · intro h
    cases h
    exact ⟨rfl, rfl⟩
  · rintro ⟨rfl, rfl⟩
    exact Run.skip

theorem run_seq_iff {Ev Exn : Type} {p q : AProg Ev Exn} {t : List Ev}
    {o : Outcome Exn} :
    Run (.aseq p q) t o ↔
      (∃ t₁ x, Run p t₁ (.thrown x) ∧ t = t₁ ∧ o = .thrown x)
      ∨ (∃ t₁ t₂, Run p t₁ .ok ∧ Run q t₂ o ∧ t = t₁ ++ t₂) := by
  constructor
  · intro h
    cases h with
    | seqOk h1 h2 => exact Or.inr ⟨_, _, h1, h2, rfl⟩
    | seqThrow h1 => exact Or.inl ⟨_, _, h1, rfl, rfl⟩
  · rintro (⟨t₁, x, h1, rfl, rfl⟩ | ⟨t₁, t₂, h1, h2, rfl⟩)
    · exact Run.seqThrow h1
    · exact Run.seqOk h1 h2

theorem run_seq_ok_iff {Ev Exn : Type} {p q : AProg Ev Exn} {t : List Ev} :
    Run (.aseq p q) t (.ok : Outcome Exn) ↔
      ∃ t₁ t₂, Run p t₁ .ok ∧ Run q t₂ .ok ∧ t = t₁ ++ t₂ := by
  rw [run_seq_iff]
  constructor
  · rintro (⟨t₁, x, h1, rfl, hx⟩ | h)
    · exact absurd hx.symm (by simp)
    · exact h
  · exact Or.inr

theorem run_seqAll_ok_iff {Ev Exn : Type} {ps : List (AProg Ev Exn)}
    {t : List Ev} :
    Run (seqAll ps) t (.ok : Outcome Exn) ↔
      ∃ ts, List.Forall₂ (fun p tp => Run p tp .ok) ps ts
        ∧ t = ts.flatten := by
  induction ps generalizing t with
  | nil =>
    rw [show seqAll ([] : List (AProg Ev Exn)) = .skip from rfl,
      run_skip_iff]
    constructor
    · rintro ⟨rfl, -⟩
      exact ⟨[], List.Forall₂.nil, rfl⟩
    · rintro ⟨ts, hts, rfl⟩
      cases hts
      exact ⟨rfl, rfl⟩
  | cons p ps ih =>
    rw [show seqAll (p :: ps) = .aseq p (seqAll ps) from rfl,
      run_seq_ok_iff]
    constructor
    · rintro ⟨t₁, t₂, h1, h2, rfl⟩
      obtain ⟨ts, hts, rfl⟩ := ih.mp h2
      exact ⟨t₁ :: ts, List.Forall₂.cons h1 hts, rfl⟩
    · rintro ⟨ts, hts, rfl⟩
      cases hts with
      | cons h1 hts' =>
        exact ⟨_, _, h1, ih.mpr ⟨_, hts', rfl⟩, rfl⟩

theorem run_par_ok_iff {Ev Exn : Type} {ps : List (AProg Ev Exn)}
    {t : List Ev} :
    Run (.apar ps) t (.ok : Outcome Exn) ↔
      ∃ ts, List.Forall₂ (fun p tp => Run p tp .ok) ps ts
        ∧ InterleaveAll ts t := by
  induction ps generalizing t with
  | nil =>
    constructor
    · intro h
      cases h
      exact ⟨[], List.Forall₂.nil, InterleaveAll.nil⟩
    · rintro ⟨ts, hts, hint⟩
      cases hts
      cases hint
      exact Run.parNil
  | cons p ps ih =>
    constructor
    · intro h
      generalize ho : (Outcome.ok : Outcome Exn) = oo at h
      cases h with
      | parCons h1 h2 hsh =>
        rename_i o₁ o₂
        have ho12 : o₁ = .ok ∧ o₂ = .ok := by
          cases o₁ with
          | thrown x => exact absurd ho (by simp [combineOutcome])
          | ok =>
            cases o₂ with
            | thrown y => exact absurd ho (by simp [combineOutcome])
            | ok => exact ⟨rfl, rfl⟩
        obtain ⟨rfl, rfl⟩ := ho12
        obtain ⟨ts, hts, hint⟩ := ih.mp h2
        exact ⟨_ :: ts, List.Forall₂.cons h1 hts,
          InterleaveAll.cons hint hsh⟩
    · rintro ⟨ts, hts, hint⟩
      cases hts with
      | cons h1 hts' =>
        cases hint with
        | cons hint' hsh =>
          have := Run.parCons h1 ((ih.mpr ⟨_, hts', hint'⟩)) hsh
          simpa [combineOutcome] using this

theorem run_callHook_ok_iff {Ctx Ev Exn : Type} {reg : Registry Ctx Ev Exn}
    {ch : List Char} {ctx : Ctx} {t : List Ev} :
    Run (callHook reg ch ctx) t (.ok : Outcome Exn) ↔
      ∃ ts, List.Forall₂ (fun h th => Run (h ctx) th .ok) (reg ch) ts
        ∧ t = ts.flatten := by
  unfold callHook
  rw [run_seqAll_ok_iff]
  simp only [List.forall₂_map_left_iff]

/-- C1: a successful run of the composed hook is exactly: the full
traces of all global-channel subscribers (serially, in registration
order), then — only when a nonempty client identifier is set — the full
traces of all per-client-channel subscribers, then the local hook
field; a local hook list contributes an arbitrary interleaving of its
entries' traces (they run concurrently), and the composed callback
resolves only after their joint completion.  The `↔` gives both the
ordering guarantee (left to right) and the realisability of every local
interleaving (right to left). -/
theorem claim_C1_hook_tier_ordering {Ctx Ev Exn : Type}
    (reg : Registry Ctx Ev Exn) (baseOpts : FetchEvent → HookFld Ctx Ev Exn)
    (hook : FetchEvent) (hookIdentifier : Option (List Char)) (ctx : Ctx)
    (t : List Ev) :
    Run (createHook reg baseOpts hook hookIdentifier ctx) t
        (.ok : Outcome Exn) ↔
      ∃ tgs tc tl,
        List.Forall₂ (fun h th => Run (h ctx) th .ok)
          (reg (channelName hook)) tgs ∧
        (match hookIdentifier with
         | some idf =>
           if idf = [] then tc = ([] : List Ev)
           else ∃ tcs, List.Forall₂ (fun h th => Run (h ctx) th .ok)
             (reg (clientChannelName hook idf)) tcs ∧ tc = tcs.flatten
         | none => tc = ([] : List Ev)) ∧
        (match baseOpts hook with
         | .noneF => tl = ([] : List Ev)
         | .single h => Run (h ctx) tl .ok
         | .list hs => ∃ tls, List.Forall₂ (fun h th => Run (h ctx) th .ok)
             hs tls ∧ InterleaveAll tls tl) ∧
        t = tgs.flatten ++ tc ++ tl := by
  rw [show createHook reg baseOpts hook hookIdentifier ctx
      = .aseq (globalTier reg hook ctx)
          (.aseq (clientTier reg hook hookIdentifier ctx)
            (localTier baseOpts hook ctx)) from rfl]
  rw [run_seq_ok_iff]
  constructor
  · rintro ⟨t₁, t₂₃, h1, h23, rfl⟩
    rw [run_seq_ok_iff] at h23
    obtain ⟨t₂, t₃, h2, h3, rfl⟩ := h23
    obtain ⟨tgs, htgs, rfl⟩ := run_callHook_ok_iff.mp h1
    refine ⟨tgs, t₂, t₃, htgs, ?_, ?_, by rw [List.append_assoc]⟩
    · cases hookIdentifier with
      | none =>
        exact (run_skip_iff.mp h2).1
      | some idf =>
        by_cases hidf : idf = []
        · simp only [clientTier, if_pos hidf] at h2
          simp only [hidf, if_pos rfl]
          exact (run_skip_iff.mp h2).1
        · simp only [clientTier, if_neg hidf] at h2
          simp only [if_neg hidf]
          exact run_callHook_ok_iff.mp h2
    · cases hbase : baseOpts hook with
      | noneF =>
        simp only [localTier, hbase] at h3
        exact (run_skip_iff.mp h3).1
      | single h =>
        simp only [localTier, hbase] at h3
        exact h3
      | list hs =>
        simp only [localTier, hbase] at h3
        rw [run_par_ok_iff] at h3
        simpa only [List.forall₂_map_left_iff] using h3
  · rintro ⟨tgs, tc, tl, htgs, htc, htl, rfl⟩
    have h1 : Run (globalTier reg hook ctx) tgs.flatten (.ok : Outcome Exn) :=
      run_callHook_ok_iff.mpr ⟨tgs, htgs, rfl⟩
    have h2 : Run (clientTier reg hook hookIdentifier ctx) tc
        (.ok : Outcome Exn) := by
      cases hookIdentifier with
      | none =>
        simp only at htc
        rw [htc]
        exact Run.skip
      | some idf =>
        by_cases hidf : idf = []
        · simp only [hidf, if_pos rfl] at htc
          rw [htc]
          simp only [clientTier, if_pos hidf]
          exact Run.skip
        · simp only [if_neg hidf] at htc
          obtain ⟨tcs, htcs, rfl⟩ := htc
          simp only [clientTier, if_neg hidf]
          exact run_callHook_ok_iff.mpr ⟨tcs, htcs, rfl⟩
    have h3 : Run (localTier baseOpts hook ctx) tl (.ok : Outcome Exn) := by
      cases hbase : baseOpts hook with
      | noneF =>
        rw [hbase] at htl
        simp only at htl
        rw [htl]
        simp only [localTier, hbase]
        exact Run.skip
      | single h =>
        rw [hbase] at htl
        simp only [localTier, hbase]
        exact htl
      | list hs =>
        rw [hbase] at htl
        obtain ⟨tls, htls, hint⟩ := htl
        simp only [localTier, hbase]
        exact run_par_ok_iff.mpr
          ⟨tls, by simpa only [List.forall₂_map_left_iff] using htls, hint⟩
    refine ⟨tgs.flatten, tc ++ tl, h1, Run.seqOk h2 h3, ?_⟩
    rw [List.append_assoc]

/-- C5: every run of the composed hook is staged — if the global tier
rejects with some `x`, nothing else runs (the trace is the global
tier's trace alone) and the composed callback rejects with the same
`x`; if the global tier succeeds and the per-client tier rejects, the
local tier never runs and the same rejection propagates; only when both
earlier tiers succeed does the local tier run, and its outcome is
passed through untouched.  No branch catches, wraps or translates the
exception. -/
theorem claim_C5_error_propagation {Ctx Ev Exn : Type}
    (reg : Registry Ctx Ev Exn) (baseOpts : FetchEvent → HookFld Ctx Ev Exn)
    (hook : FetchEvent) (hookIdentifier : Option (List Char)) (ctx : Ctx)
    (t : List Ev) (o : Outcome Exn) :
    Run (createHook reg baseOpts hook hookIdentifier ctx) t o →
      (∃ tg x, Run (globalTier reg hook ctx) tg (.thrown x)
        ∧ t = tg ∧ o = .thrown x)
      ∨ (∃ tg tc x, Run (globalTier reg hook ctx) tg .ok
          ∧ Run (clientTier reg hook hookIdentifier ctx) tc (.thrown x)
          ∧ t = tg ++ tc ∧ o = .thrown x)
      ∨ (∃ tg tc tl, Run (globalTier reg hook ctx) tg .ok
          ∧ Run (clientTier reg hook hookIdentifier ctx) tc .ok
          ∧ Run (localTier baseOpts hook ctx) tl o
          ∧ t = tg ++ tc ++ tl) := by
  intro h
  rw [show createHook reg baseOpts hook hookIdentifier ctx
      = .aseq (globalTier reg hook ctx)
          (.aseq (clientTier reg hook hookIdentifier ctx)
            (localTier baseOpts hook ctx)) from rfl] at h
  rw [run_seq_iff] at h
  rcases h with ⟨t₁, x, h1, rfl, rfl⟩ | ⟨t₁, t₂₃, h1, h23, rfl⟩
  · exact Or.inl ⟨_, _, h1, rfl, rfl⟩
  · rw [run_seq_iff] at h23
    rcases h23 with ⟨t₂, x, h2, rfl, rfl⟩ | ⟨t₂, t₃, h2, h3, rfl⟩
    · exact Or.inr (Or.inl ⟨_, _, _, h1, h2, rfl, rfl⟩)
    · exact Or.inr (Or.inr
        ⟨_, _, _, h1, h2, h3, by rw [List.append_assoc]⟩)

theorem throwingReg_global :
    globalTier throwingReg .onRequest () = .aseq (.athrow 7) .skip := by
  unfold globalTier callHook seqAll throwingReg
  rw [if_pos rfl]
  rfl

theorem throwingReg_run :
    Run (createHook throwingReg localBaseOpts .onRequest none ())
      ([] : List Nat) (.thrown 7 : Outcome Nat) := by
  rw [show createHook throwingReg localBaseOpts .onRequest none ()
      = .aseq (globalTier throwingReg .onRequest ())
          (.aseq (clientTier throwingReg .onRequest none ())
            (localTier localBaseOpts .onRequest ())) from rfl,
    throwingReg_global]
  exact Run.seqThrow (Run.seqThrow (Run.athrow 7))

/-- C5 witness: on the registry with a throwing global `onRequest`
subscriber and a local hook installed, the staged decomposition applies
to the concrete failing run. -/
theorem claim_C5_witness :
    (∃ tg x, Run (globalTier throwingReg .onRequest ()) tg (.thrown x)
        ∧ ([] : List Nat) = tg ∧ (.thrown 7 : Outcome Nat) = .thrown x)
      ∨ (∃ tg tc x, Run (globalTier throwingReg .onRequest ()) tg .ok
          ∧ Run (clientTier throwingReg .onRequest none ()) tc (.thrown x)
          ∧ ([] : List Nat) = tg ++ tc
          ∧ (.thrown 7 : Outcome Nat) = .thrown x)
      ∨ (∃ tg tc tl, Run (globalTier throwingReg .onRequest ()) tg .ok
          ∧ Run (clientTier throwingReg .onRequest none ()) tc .ok
          ∧ Run (localTier localBaseOpts .onRequest ()) tl
              (.thrown 7 : Outcome Nat)
          ∧ ([] : List Nat) = tg ++ tc ++ tl) :=
  claim_C5_error_propagation throwingReg localBaseOpts .onRequest none ()
    [] (.thrown 7) throwingReg_run
